import Mathlib

set_option maxHeartbeats 1000000

/-!
Shallow embedding of the xv6 lab kernel's sharded buffer cache
(`kernel/bio.c`) and per-CPU physical page allocator (`kernel/kalloc.c`).

Buffer-cache chains are represented as lists of slot indices (the intrusive
`next` pointers of `struct buf`), one list per hash bucket; the flat slot
array `bcache.buf[NBUF]` is a function `Fin N → Buf`.  The allocator's
per-CPU free lists are lists of frame addresses (plain naturals).  The C
`uint` reference count is a natural kept below `2^32` with explicit
wrap-around on increment and decrement.  Lock acquire/release sequences,
which matter for the temporal claims, are reified as event traces produced
by trace functions that mirror the source line by line.
-/

namespace Xv6

/-- `__UINT32_MAX__`, the initial value of `minstamp` in `bget`. -/
def UINT32MAX : Nat := 4294967295

/-- Modulus of the C `uint` type. -/
def UMOD : Nat := 4294967296

/-- `uint` increment (`b->refcnt++`). -/
def uinc (r : Nat) : Nat := (r + 1) % UMOD

/-- `uint` decrement (`b->refcnt--`): adding `2^32 - 1` modulo `2^32`. -/
def udec (r : Nat) : Nat := (r + UINT32MAX) % UMOD

/-- `#define HASHBUCKET 17` in bio.c. -/
def HASHBUCKET : Nat := 17

instance : NeZero HASHBUCKET := ⟨by decide⟩

/-- `#define HASH(dev, blockno) (((dev) + (blockno)) % HASHBUCKET)`. -/
def HASH (dev blockno : Nat) : Fin HASHBUCKET :=
  ⟨(dev + blockno) % HASHBUCKET, Nat.mod_lt _ (by decide)⟩

/-- One cache slot (`struct buf`): the bio.c-visible fields.  The sleeplock
and data payload are external to the claims modelled here. -/
structure Buf where
  dev : Nat
  blockno : Nat
  valid : Bool
  refcnt : Nat
  tick : Nat
deriving DecidableEq

/-- Buffer-cache state: the slot array `bcache.buf` and the bucket chains
`bhash.head[..]`, each chain the list of slot indices reachable through the
`next` pointers. -/
structure BState (N : Nat) where
  slots : Fin N → Buf
  head : Fin HASHBUCKET → List (Fin N)
deriving DecidableEq

/-- The hit scan of a bucket chain (`for (b = head; b; b = b->next) if
(b->dev == dev && b->blockno == blockno)`): first matching slot. -/
def findHit {N : Nat} (sl : Fin N → Buf) (dev blockno : Nat)
    (chain : List (Fin N)) : Option (Fin N) :=
  chain.find? (fun b => (sl b).dev == dev && (sl b).blockno == blockno)

/-- The per-bucket minimum-timestamp scan of `bget`: walk the chain keeping
`min_buf`/`minstamp`, updating on `b->refcnt == 0 && b->tick < minstamp`. -/
def findMinAux {N : Nat} (sl : Fin N → Buf) :
    List (Fin N) → Option (Fin N) → Nat → Option (Fin N)
  | [], best, _ => best
  | b :: rest, best, minstamp =>
    if (sl b).refcnt = 0 ∧ (sl b).tick < minstamp then
      findMinAux sl rest (some b) (sl b).tick
    else
      findMinAux sl rest best minstamp

/-- `min_buf` after scanning one whole chain, starting from
`min_buf = 0, minstamp = __UINT32_MAX__`. -/
def findMin {N : Nat} (sl : Fin N → Buf) (chain : List (Fin N)) : Option (Fin N) :=
  findMinAux sl chain none UINT32MAX

/-- A slot the minimum-timestamp scan can select: reference count zero and
timestamp strictly below the initial `minstamp` of `__UINT32_MAX__`. -/
def eligible {N : Nat} (sl : Fin N → Buf) (i : Fin N) : Prop :=
  (sl i).refcnt = 0 ∧ (sl i).tick < UINT32MAX

/-- The hit action of `bget`: `b->refcnt++; b->tick = ticks;`. -/
def touchHit {N : Nat} (st : BState N) (b : Fin N) (now : Nat) : BState N :=
  { st with
    slots := Function.update st.slots b
      { st.slots b with refcnt := uinc (st.slots b).refcnt, tick := now } }

/-- The eviction action of `bget` on the chosen `min_buf`: overwrite its
identity, invalidate, set `refcnt = 1`, restamp; when the victim's bucket
differs from the target bucket, unlink it there (`min_buf_pre->next =
min_buf->next` resp. head update, i.e. removal of the found occurrence) and
push it on the target bucket's chain. -/
def evict {N : Nat} (st : BState N) (m : Fin N) (bucket target : Fin HASHBUCKET)
    (dev blockno now : Nat) : BState N :=
  let sl := Function.update st.slots m ⟨dev, blockno, false, 1, now⟩
  if bucket = target then
    { slots := sl, head := st.head }
  else
    let h1 := Function.update st.head bucket ((st.head bucket).erase m)
    { slots := sl, head := Function.update h1 target (m :: h1 target) }

/-- The slow-path loop of `bget` over the bucket scan order: in each bucket,
re-check for a hit (only meaningful in the target bucket), otherwise take the
bucket's `min_buf` as victim if one exists, otherwise move on.  Falling off
the end is `panic("ind: no buffers")`, modelled as `none`. -/
def slowScan {N : Nat} (dev blockno now : Nat) (target : Fin HASHBUCKET) :
    List (Fin HASHBUCKET) → BState N → Option (Fin N × BState N)
  | [], _ => none
  | bucket :: rest, st =>
    match (if bucket = target then findHit st.slots dev blockno (st.head bucket) else none) with
    | some b => some (b, touchHit st b now)
    | none =>
      match findMin st.slots (st.head bucket) with
      | some m => some (m, evict st m bucket target dev blockno now)
      | none => slowScan dev blockno now target rest st

/-- The buckets in the order the slow path visits them: `bucket = new_bucket`
then `if (++bucket == HASHBUCKET) bucket = 0`, for `HASHBUCKET` iterations. -/
def scanOrder (start : Fin HASHBUCKET) : List (Fin HASHBUCKET) :=
  (List.range HASHBUCKET).map (fun i => ⟨(start.val + i) % HASHBUCKET, Nat.mod_lt _ (by decide)⟩)

/-- `bget(dev, blockno)` reading the tick counter `now`: fast-path scan of
the target bucket, then the cross-bucket slow path.  `none` is the
`panic("ind: no buffers")` abort. -/
def bget {N : Nat} (st : BState N) (dev blockno now : Nat) : Option (Fin N × BState N) :=
  match findHit st.slots dev blockno (st.head (HASH dev blockno)) with
  | some b => some (b, touchHit st b now)
  | none => slowScan dev blockno now (HASH dev blockno) (scanOrder (HASH dev blockno)) st

/-- `brelse`: decrement the reference count; if it reached zero, stamp the
release tick. -/
def brelse {N : Nat} (st : BState N) (i : Fin N) (now : Nat) : BState N :=
  { st with
    slots := Function.update st.slots i
      { st.slots i with
        refcnt := udec (st.slots i).refcnt,
        tick := if udec (st.slots i).refcnt = 0 then now else (st.slots i).tick } }

/-- `bpin`: increment the reference count. -/
def bpin {N : Nat} (st : BState N) (i : Fin N) : BState N :=
  { st with
    slots := Function.update st.slots i
      { st.slots i with refcnt := uinc (st.slots i).refcnt } }

/-- `bunpin`: decrement the reference count. -/
def bunpin {N : Nat} (st : BState N) (i : Fin N) : BState N :=
  { st with
    slots := Function.update st.slots i
      { st.slots i with refcnt := udec (st.slots i).refcnt } }

/-- `bread` after `bget`: if the slot is invalid, fetch from disk and mark it
valid (the device transfer itself is external). -/
def bread {N : Nat} (st : BState N) (i : Fin N) : BState N :=
  { st with
    slots := Function.update st.slots i { st.slots i with valid := true } }

/-- The cache state `binit` builds: every slot gets `tick = iticks` and zeroed
identity (C static initialisation), all `N` slots are chained consecutively,
and `bhash.head[0] = &bcache.buf[0]`, so bucket 0's chain is the whole array
and every other bucket is empty. -/
def binitState (N : Nat) (t0 : Nat) : BState N :=
  { slots := fun _ => ⟨0, 0, false, 0, t0⟩,
    head := fun b => if b = 0 then List.finRange N else [] }

/-- The cache operations of the public contract. -/
inductive COp (N : Nat) where
  | get (dev blockno now : Nat)
  | relse (i : Fin N) (now : Nat)
  | pin (i : Fin N)
  | unpin (i : Fin N)
  | read (i : Fin N)
  | write (i : Fin N)

/-- One cache operation as a state step; `none` is a `bget` panic. -/
def cstep {N : Nat} (st : BState N) : COp N → Option (BState N)
  | .get d b now => (bget st d b now).map Prod.snd
  | .relse i now => some (brelse st i now)
  | .pin i => some (bpin st i)
  | .unpin i => some (bunpin st i)
  | .read i => some (bread st i)
  | .write _ => some st

/-- Run a sequence of cache operations. -/
def cexec {N : Nat} (st : BState N) : List (COp N) → Option (BState N)
  | [] => some st
  | op :: rest =>
    match cstep st op with
    | some st' => cexec st' rest
    | none => none

/-- Bump a per-slot counter at one slot. -/
def bump {N : Nat} (f : Fin N → Nat) (i : Fin N) : Fin N → Nat :=
  Function.update f i (f i + 1)

/-- Run a sequence of cache operations while counting, per slot, the
reference-increment events (a `bget` returning that slot, or a `bpin` of it)
and the reference-decrement events (`brelse`/`bunpin` of it). -/
def cexecCnt {N : Nat} (st : BState N) (inc dec : Fin N → Nat) :
    List (COp N) → Option (BState N × (Fin N → Nat) × (Fin N → Nat))
  | [] => some (st, inc, dec)
  | op :: rest =>
    match op with
    | .get d b now =>
      match bget st d b now with
      | some (r, st') => cexecCnt st' (bump inc r) dec rest
      | none => none
    | .relse i now => cexecCnt (brelse st i now) inc (bump dec i) rest
    | .pin i => cexecCnt (bpin st i) (bump inc i) dec rest
    | .unpin i => cexecCnt (bunpin st i) inc (bump dec i) rest
    | .read i => cexecCnt (bread st i) inc dec rest
    | .write _ => cexecCnt st inc dec rest

/-- A run is matched when every `brelse`/`bunpin` of a slot is preceded by
strictly more reference-increments than reference-decrements of that same
slot (its matching `bget`/`bpin`), counting along the run. -/
def MatchedRun {N : Nat} (st : BState N) (inc dec : Fin N → Nat) :
    List (COp N) → Prop
  | [] => True
  | op :: rest =>
    match op with
    | .get d b now =>
      match bget st d b now with
      | some (r, st') => MatchedRun st' (bump inc r) dec rest
      | none => True
    | .relse i now => dec i < inc i ∧ MatchedRun (brelse st i now) inc (bump dec i) rest
    | .pin i => MatchedRun (bpin st i) (bump inc i) dec rest
    | .unpin i => dec i < inc i ∧ MatchedRun (bunpin st i) inc (bump dec i) rest
    | .read i => MatchedRun (bread st i) inc dec rest
    | .write _ => MatchedRun st inc dec rest

/-! ### The physical page allocator (kalloc.c) -/

/-- Allocator state: one free list of frame addresses per CPU shard
(`struct kmem kmem[NCPU]`). -/
structure KState (C : Nat) where
  freelist : Fin C → List Nat
deriving DecidableEq

/-- Number of iterations of the `while (fast && fast->next)` loop of the
steal split in `kalloc`, with `fast` starting at the head of the donor list
and advancing two nodes per iteration.  The slow pointer `pre` advances one
node per iteration starting before the list, so it ends on the node at index
`fastIters l - 1`; the donor keeps the nodes up to and including `pre`
(`pre->next = 0`), i.e. the first `fastIters l` nodes, and the thief takes
the rest (`kmem[id].freelist = pre->next`; all of it when `pre` is null). -/
def fastIters : List Nat → Nat
  | [] => 0
  | [_] => 0
  | _ :: _ :: rest => fastIters rest + 1

/-- The probe loop of `kalloc`: `for (i = 0; i < NCPU; i++)`, skipping the
caller's own shard, stopping at the first shard with a non-empty free list. -/
def findDonor {C : Nat} (id : Fin C) (fl : Fin C → List Nat) :
    List (Fin C) → Option (Fin C)
  | [] => none
  | i :: rest => if i ≠ id ∧ fl i ≠ [] then some i else findDonor id fl rest

/-- `kalloc()` called from CPU `id`: pop the local free list; if it is empty,
probe the other shards in index order, split the first non-empty donor list
with the slow/fast pointer walk (donor keeps the front `fastIters` nodes,
the caller's shard receives the rest), then pop the head of the received
segment.  Returns the frame (`none` = the C null result) and the new state. -/
def kalloc {C : Nat} (st : KState C) (id : Fin C) : Option Nat × KState C :=
  match st.freelist id with
  | r :: rest => (some r, ⟨Function.update st.freelist id rest⟩)
  | [] =>
    match findDonor id st.freelist (List.finRange C) with
    | none => (none, st)
    | some i =>
      let l := st.freelist i
      let fl1 := Function.update st.freelist i (l.take (fastIters l))
      match l.drop (fastIters l) with
      | r :: rest => (some r, ⟨Function.update fl1 id rest⟩)
      | [] => (none, ⟨Function.update fl1 id []⟩)

/-- `kfree(pa)` called from CPU `id`: push the frame on the local free list.
(The alignment/range panic and the junk fill act on the raw address and
memory contents, outside this model of the list structure.) -/
def kfree {C : Nat} (st : KState C) (id : Fin C) (pa : Nat) : KState C :=
  ⟨Function.update st.freelist id (pa :: st.freelist id)⟩

/-- The all-empty allocator state before `freerange`. -/
def initK (C : Nat) : KState C := ⟨fun _ => []⟩

/-- `freerange` pushes each frame of the range, in address order, onto the
calling CPU's shard. -/
def freerangeList {C : Nat} (st : KState C) (id : Fin C) : List Nat → KState C
  | [] => st
  | p :: rest => freerangeList (kfree st id p) id rest

/-- `kinit`/`freerange` from CPU `id` over a list of frame addresses. -/
def populate (C : Nat) (id : Fin C) (frames : List Nat) : KState C :=
  freerangeList (initK C) id frames

/-- Allocator state together with the frames currently handed out to callers
and not yet freed. -/
structure AState (C : Nat) where
  ks : KState C
  allocated : List Nat

/-- The allocator operations: `kalloc` from a CPU, `kfree` of a frame from a
CPU. -/
inductive KOp (C : Nat) where
  | alloc (id : Fin C)
  | free (id : Fin C) (pa : Nat)

/-- One allocator operation as a step on the state plus outstanding frames. -/
def kstep {C : Nat} (st : AState C) : KOp C → AState C
  | .alloc id =>
    match kalloc st.ks id with
    | (some p, ks') => ⟨ks', p :: st.allocated⟩
    | (none, ks') => ⟨ks', st.allocated⟩
  | .free id pa => ⟨kfree st.ks id pa, st.allocated.erase pa⟩

/-- Run a sequence of allocator operations. -/
def kexec {C : Nat} (st : AState C) : List (KOp C) → AState C
  | [] => st
  | op :: rest => kexec (kstep st op) rest

/-- A run is legal when every `kfree` frees a frame currently handed out
(i.e. previously returned by `kalloc` with no intervening free of it) —
the caller contract of `kfree`. -/
def LegalRun {C : Nat} (st : AState C) : List (KOp C) → Prop
  | [] => True
  | .alloc id :: rest => LegalRun (kstep st (.alloc id)) rest
  | .free id pa :: rest => pa ∈ st.allocated ∧ LegalRun (kstep st (.free id pa)) rest

/-- The multiset of all entries of a shard-indexed family of lists. -/
def headsMS {K : Nat} {α : Type} (f : Fin K → List α) : Multiset α :=
  ∑ b : Fin K, (f b : Multiset α)

/-- The multiset contributed by an optional returned frame. -/
def optMS : Option Nat → Multiset Nat
  | some p => {p}
  | none => 0

/-- The allocator state right after `kinit`/`freerange` from CPU `id`:
the populated shard state with no frame yet handed out. -/
def initA (C : Nat) (id : Fin C) (frames : List Nat) : AState C :=
  ⟨populate C id frames, []⟩

/-- All frames of an allocator state: entries of all free lists plus the
frames handed out and not yet freed. -/
def totalMS {C : Nat} (st : AState C) : Multiset Nat :=
  headsMS st.ks.freelist + (st.allocated : Multiset Nat)

/-- The multiset of slot indices on all bucket chains. -/
def chainsMS {N : Nat} (st : BState N) : Multiset (Fin N) :=
  headsMS st.head

/-! ### Lock-event traces -/

/-- Shard-lock events of `kalloc`. -/
inductive KEvent (C : Nat) where
  | acq (i : Fin C)
  | rel (i : Fin C)
deriving DecidableEq

/-- The shard-lock events of the probe loop of `kalloc`: skip the caller's
shard; acquire each probed shard's lock; a shard found empty is released and
the probe moves on; the first donor is released after the split and the loop
breaks. -/
def probeTrace {C : Nat} (id : Fin C) (fl : Fin C → List Nat) :
    List (Fin C) → List (KEvent C)
  | [] => []
  | i :: rest =>
    if i = id then probeTrace id fl rest
    else if fl i = [] then KEvent.acq i :: KEvent.rel i :: probeTrace id fl rest
    else [KEvent.acq i, KEvent.rel i]

/-- The shard-lock trace of one `kalloc` call from CPU `id`: acquire the
local lock; when the local list is empty, run the probe loop (with the local
lock still held); release the local lock last. -/
def kallocTrace {C : Nat} (st : KState C) (id : Fin C) : List (KEvent C) :=
  KEvent.acq id ::
    ((if st.freelist id = [] then probeTrace id st.freelist (List.finRange C) else []) ++
      [KEvent.rel id])

/-- Locks held after a shard-lock event sequence, starting from `held`. -/
def heldK {C : Nat} : List (Fin C) → List (KEvent C) → List (Fin C)
  | held, [] => held
  | held, KEvent.acq i :: rest => heldK (i :: held) rest
  | held, KEvent.rel i :: rest => heldK (held.erase i) rest

/-- Checker for the shard-lock discipline `kalloc` actually follows: the
local lock is acquired first and released last (so it is held during the
entire probe); a second lock is acquired only while exactly the local lock
is held, so never more than two shard locks are held at once; every release
matches the innermost held lock. -/
def kallocLockOk {C : Nat} (id : Fin C) :
    Bool → Option (Fin C) → List (KEvent C) → Bool
  | false, none, [] => true
  | _, _, [] => false
  | false, none, KEvent.acq j :: rest => decide (j = id) && kallocLockOk id true none rest
  | true, none, KEvent.acq j :: rest => decide (j ≠ id) && kallocLockOk id true (some j) rest
  | true, some d, KEvent.rel j :: rest => decide (j = d) && kallocLockOk id true none rest
  | true, none, KEvent.rel j :: rest => decide (j = id) && kallocLockOk id false none rest
  | _, _, _ :: _ => false

/-- Bucket-lock events of `bget` (the global `bhash.hlock` and the per-slot
sleeplocks are not bucket locks; `acqH`/`relH` are carried for completeness
and ignored by the bucket-lock accounting), plus markers for the chain
unlink and relink of the eviction step, each tagged with the bucket whose
chain is modified. -/
inductive BEvent where
  | acqB (b : Fin HASHBUCKET)
  | relB (b : Fin HASHBUCKET)
  | acqH
  | relH
  | unlink (b : Fin HASHBUCKET)
  | relink (b : Fin HASHBUCKET)
deriving DecidableEq

/-- The lock/chain-event trace of the slow-path loop of `bget`: per bucket,
acquire its lock; on a re-check hit release it and the global lock; on an
eviction inside the target bucket likewise; on a cross-bucket eviction,
unlink under the victim bucket's lock, release it, only then acquire the
target bucket's lock, relink, release it and the global lock; on a fruitless
bucket release its lock and continue.  Falling off the end is the panic. -/
def slowScanTrace {N : Nat} (sl : Fin N → Buf) (hd : Fin HASHBUCKET → List (Fin N))
    (dev blockno : Nat) (target : Fin HASHBUCKET) :
    List (Fin HASHBUCKET) → List BEvent
  | [] => []
  | bucket :: rest =>
    BEvent.acqB bucket ::
      (match (if bucket = target then findHit sl dev blockno (hd bucket) else none) with
       | some _ => [BEvent.relB bucket, BEvent.relH]
       | none =>
         match findMin sl (hd bucket) with
         | some _ =>
           if bucket = target then [BEvent.relB target, BEvent.relH]
           else [BEvent.unlink bucket, BEvent.relB bucket, BEvent.acqB target,
                 BEvent.relink target, BEvent.relB target, BEvent.relH]
         | none => BEvent.relB bucket :: slowScanTrace sl hd dev blockno target rest)

/-- The lock/chain-event trace of one `bget` call: fast path under the target
bucket's lock; on a miss, the global lock then the slow-path loop. -/
def bgetTrace {N : Nat} (st : BState N) (dev blockno : Nat) : List BEvent :=
  BEvent.acqB (HASH dev blockno) ::
    match findHit st.slots dev blockno (st.head (HASH dev blockno)) with
    | some _ => [BEvent.relB (HASH dev blockno)]
    | none =>
      BEvent.relB (HASH dev blockno) :: BEvent.acqH ::
        slowScanTrace st.slots st.head dev blockno (HASH dev blockno)
          (scanOrder (HASH dev blockno))

/-- Bucket locks held after an event sequence, starting from `held`. -/
def heldB : List (Fin HASHBUCKET) → List BEvent → List (Fin HASHBUCKET)
  | held, [] => held
  | held, BEvent.acqB b :: rest => heldB (b :: held) rest
  | held, BEvent.relB b :: rest => heldB (held.erase b) rest
  | held, _ :: rest => heldB held rest

/-- Checker for the bucket-lock discipline `bget` actually follows: at most
one bucket lock is held at any time (a bucket lock is acquired only while
none is held), every unlink and every relink happens while exactly the lock
of the bucket whose chain is modified is held, releases match the held lock,
and no bucket lock remains held at the end. -/
def bucketLockOk : Option (Fin HASHBUCKET) → List BEvent → Bool
  | none, [] => true
  | some _, [] => false
  | none, BEvent.acqB b :: rest => bucketLockOk (some b) rest
  | some h, BEvent.relB b :: rest => decide (b = h) && bucketLockOk none rest
  | some h, BEvent.unlink b :: rest => decide (b = h) && bucketLockOk (some h) rest
  | some h, BEvent.relink b :: rest => decide (b = h) && bucketLockOk (some h) rest
  | held, BEvent.acqH :: rest => bucketLockOk held rest
  | held, BEvent.relH :: rest => bucketLockOk held rest
  | _, _ :: _ => false

/-! ### Concrete scenario states -/

/-- Steal scenario of C6: shard 0 holds frames `[1,2,3,4,5]`, shard 1 is
empty and allocates. -/
def kstateFive : KState 2 := ⟨![[1, 2, 3, 4, 5], []]⟩

/-- Steal scenario of C9 and the C2 counterexample: shard 0 is empty and
allocates, shard 1 holds the single frame `7`. -/
def kstateOne : KState 2 := ⟨![[], [7]]⟩

/-- Cache state refuting global-minimum eviction: slot 0 (key `(0,18)`,
released at tick `100`) sits in its hash bucket 1; slot 1 (key `(0,5)`,
released at tick `5`) sits in its hash bucket 5; both are unreferenced.
A request for key `(0,1)` hashes to bucket 1 and misses. -/
def bstateTwo : BState 2 :=
  { slots := ![⟨0, 18, true, 0, 100⟩, ⟨0, 5, true, 0, 5⟩],
    head := fun b => if b = 1 then [0] else if b = 5 then [1] else [] }

/-- Cache state forcing a cross-bucket eviction: the only slot (key `(0,0)`,
unreferenced, tick `7`) sits in bucket 0; a request for key `(0,1)` hashes
to bucket 1, misses, and must migrate the slot from bucket 0 to bucket 1. -/
def bstateMig : BState 1 :=
  { slots := ![⟨0, 0, true, 0, 7⟩],
    head := fun b => if b = 0 then [0] else [] }

/-- Cache state whose only slot (key `(0,0)`) is referenced: a request for
key `(0,1)` misses and the full scan finds no reference-count-0 slot. -/
def bstateBusy : BState 1 :=
  { slots := ![⟨0, 0, true, 1, 3⟩],
    head := fun b => if b = 0 then [0] else [] }

end Xv6

namespace Xv6

/-! ### C6 / C9: concrete steal behaviour -/

/-- C6: with donor shard 0 holding `[1,2,3,4,5]` and thief shard 1 empty,
`kalloc` from shard 1 leaves the donor with exactly the front two frames
`[1,2]` (the split rule keeps the donor's list up to the slow pointer),
returns frame `3` (the head of the stolen back segment), leaves the thief
with `[4,5]`, and no frame is duplicated or lost. -/
theorem c6_steal_five :
    (kalloc kstateFive 1).1 = some 3 ∧
    (kalloc kstateFive 1).2.freelist 0 = [1, 2] ∧
    (kalloc kstateFive 1).2.freelist 1 = [4, 5] ∧
    headsMS (kalloc kstateFive 1).2.freelist + ({3} : Multiset Nat) =
      (([1, 2, 3, 4, 5] : List Nat) : Multiset Nat) := by
  decide

/-- C9: with donor shard 1 holding the single frame `7` and thief shard 0
empty, the slow pointer never advances, so the thief takes the donor's whole
one-frame list (the donor becomes empty) and that frame is returned. -/
theorem c9_steal_one :
    (kalloc kstateOne 0).1 = some 7 ∧
    (kalloc kstateOne 0).2.freelist 1 = [] ∧
    (kalloc kstateOne 0).2.freelist 0 = [] := by
  decide

/-! ### C1: eviction is per-bucket, not globally minimal -/

/-- C1 counterexample: a miss for key `(0,1)` (no slot caches it) evicts and
returns slot 0 — the minimal unreferenced slot of the first scanned bucket —
even though slot 1 is unreferenced, lives on bucket 5's chain, and has a
strictly smaller release timestamp; so the victim is not the slot with the
globally smallest timestamp among reference-count-0 slots. -/
theorem c1_eviction_not_global_min :
    (∀ i : Fin 2, ¬((bstateTwo.slots i).dev = 0 ∧ (bstateTwo.slots i).blockno = 1)) ∧
    (bget bstateTwo 0 1 200).map Prod.fst = some 0 ∧
    (bstateTwo.slots 1).refcnt = 0 ∧
    (1 : Fin 2) ∈ bstateTwo.head 5 ∧
    (bstateTwo.slots 1).tick < (bstateTwo.slots 0).tick := by
  decide

/-! ### C2: the local shard lock is not released before probing -/

/-- C2 counterexample: from shard 0 with an empty local list next to a
non-empty shard 1, the shard-lock trace of `kalloc` is literally
acquire-local, acquire-donor, release-donor, release-local; after its second
event the caller holds both its local shard lock and the donor's
simultaneously, refuting that the local lock is released before any other
shard's lock is acquired. -/
theorem c2_local_lock_held_during_probe :
    kstateOne.freelist 0 = [] ∧
    kallocTrace kstateOne 0 =
      [KEvent.acq 0, KEvent.acq 1, KEvent.rel 1, KEvent.rel 0] ∧
    (0 : Fin 2) ∈ heldK [] ((kallocTrace kstateOne 0).take 2) ∧
    (1 : Fin 2) ∈ heldK [] ((kallocTrace kstateOne 0).take 2) ∧
    (0 : Fin 2) ≠ 1 := by
  decide

/-! ### C3: migration never holds the two bucket locks simultaneously -/

/-- C3 counterexample: in the forced cross-bucket eviction (victim in bucket
0, target bucket 1 = `HASH 0 1`), the unlink event occurs while only bucket
0's lock is held — the target bucket's lock is not held — and the relink
event occurs while only bucket 1's lock is held — the old bucket's lock is
no longer held; so the unlink and relink are not performed under both bucket
locks simultaneously. -/
theorem c3_unlink_relink_not_simultaneous :
    HASH 0 1 = 1 ∧
    (bgetTrace bstateMig 0 1)[36]? = some (BEvent.unlink 0) ∧
    heldB [] ((bgetTrace bstateMig 0 1).take 36) = [0] ∧
    (1 : Fin HASHBUCKET) ∉ ([0] : List (Fin HASHBUCKET)) ∧
    (bgetTrace bstateMig 0 1)[39]? = some (BEvent.relink 1) ∧
    heldB [] ((bgetTrace bstateMig 0 1).take 39) = [1] ∧
    (0 : Fin HASHBUCKET) ∉ ([1] : List (Fin HASHBUCKET)) := by
  decide

end Xv6

namespace Xv6

/-! ### Properties of the per-bucket minimum scan -/

theorem findMinAux_mem {N : Nat} (sl : Fin N → Buf) :
    ∀ (chain : List (Fin N)) (best : Option (Fin N)) (stamp : Nat) (m : Fin N),
      findMinAux sl chain best stamp = some m → best = some m ∨ m ∈ chain := by
  intro chain
  induction chain with
  | nil =>
    intro best stamp m h
    exact Or.inl h
  | cons b rest ih =>
    intro best stamp m h
    rw [findMinAux] at h
    by_cases hc : (sl b).refcnt = 0 ∧ (sl b).tick < stamp
    · rw [if_pos hc] at h
      rcases ih _ _ _ h with h1 | h2
      · exact Or.inr (by rw [Option.some.injEq] at h1; rw [← h1]; exact List.mem_cons_self b rest)
      · exact Or.inr (List.mem_cons_of_mem _ h2)
    · rw [if_neg hc] at h
      rcases ih _ _ _ h with h1 | h2
      · exact Or.inl h1
      · exact Or.inr (List.mem_cons_of_mem _ h2)

theorem findMinAux_none {N : Nat} (sl : Fin N → Buf) :
    ∀ (chain : List (Fin N)) (best : Option (Fin N)) (stamp : Nat),
      findMinAux sl chain best stamp = none →
      best = none ∧ ∀ j ∈ chain, ¬((sl j).refcnt = 0 ∧ (sl j).tick < stamp) := by
  intro chain
  induction chain with
  | nil =>
    intro best stamp h
    exact ⟨h, by intro j hj; cases hj⟩
  | cons b rest ih =>
    intro best stamp h
    rw [findMinAux] at h
    by_cases hc : (sl b).refcnt = 0 ∧ (sl b).tick < stamp
    · rw [if_pos hc] at h
      rcases ih _ _ h with ⟨h1, _⟩
      cases h1
    · rw [if_neg hc] at h
      rcases ih _ _ h with ⟨h1, h2⟩
      refine ⟨h1, ?_⟩
      intro j hj
      rcases List.mem_cons.mp hj with rfl | hj'
      · exact hc
      · exact h2 j hj'

theorem findMinAux_refcnt {N : Nat} (sl : Fin N → Buf) :
    ∀ (chain : List (Fin N)) (best : Option (Fin N)) (stamp : Nat) (m : Fin N),
      (∀ x, best = some x → (sl x).refcnt = 0) →
      findMinAux sl chain best stamp = some m →
      (sl m).refcnt = 0 ∧ (best = some m ∨ (sl m).tick < stamp) := by
  intro chain
  induction chain with
  | nil =>
    intro best stamp m hb h
    exact ⟨hb m h, Or.inl h⟩
  | cons b rest ih =>
    intro best stamp m hb h
    rw [findMinAux] at h
    by_cases hc : (sl b).refcnt = 0 ∧ (sl b).tick < stamp
    · rw [if_pos hc] at h
      have hb' : ∀ x, (some b : Option (Fin N)) = some x → (sl x).refcnt = 0 := by
        intro x hx
        rw [Option.some.injEq] at hx
        rw [← hx]
        exact hc.1
      rcases ih _ _ _ hb' h with ⟨h1, h2⟩
      refine ⟨h1, Or.inr ?_⟩
      rcases h2 with h2 | h2
      · rw [Option.some.injEq] at h2
        rw [← h2]
        exact hc.2
      · exact lt_trans h2 hc.2
    · rw [if_neg hc] at h
      exact ih _ _ _ hb h

theorem findMinAux_tick_le {N : Nat} (sl : Fin N → Buf) :
    ∀ (chain : List (Fin N)) (best : Option (Fin N)) (stamp : Nat) (m : Fin N),
      (∀ x, best = some x → (sl x).tick ≤ stamp) →
      findMinAux sl chain best stamp = some m →
      (sl m).tick ≤ stamp := by
  intro chain
  induction chain with
  | nil =>
    intro best stamp m hb h
    exact hb m h
  | cons b rest ih =>
    intro best stamp m hb h
    rw [findMinAux] at h
    by_cases hc : (sl b).refcnt = 0 ∧ (sl b).tick < stamp
    · rw [if_pos hc] at h
      have hb' : ∀ x, (some b : Option (Fin N)) = some x → (sl x).tick ≤ (sl b).tick := by
        intro x hx
        rw [Option.some.injEq] at hx
        rw [← hx]
      have := ih _ _ _ hb' h
      exact le_of_lt (lt_of_le_of_lt this hc.2)
    · rw [if_neg hc] at h
      exact ih _ _ _ hb h

theorem findMinAux_min {N : Nat} (sl : Fin N → Buf) :
    ∀ (chain : List (Fin N)) (best : Option (Fin N)) (stamp : Nat) (m : Fin N),
      findMinAux sl chain best stamp = some m →
      ∀ j ∈ chain, (sl j).refcnt = 0 → (sl j).tick < stamp →
        (sl m).tick ≤ (sl j).tick := by
  intro chain
  induction chain with
  | nil =>
    intro best stamp m _ j hj
    cases hj
  | cons b rest ih =>
    intro best stamp m h j hj hrefj htickj
    rw [findMinAux] at h
    by_cases hc : (sl b).refcnt = 0 ∧ (sl b).tick < stamp
    · rw [if_pos hc] at h
      have htm : (sl m).tick ≤ (sl b).tick := by
        refine findMinAux_tick_le sl rest (some b) (sl b).tick m ?_ h
        intro x hx
        rw [Option.some.injEq] at hx
        rw [← hx]
      rcases List.mem_cons.mp hj with rfl | hj'
      · exact htm
      · by_cases hlt : (sl j).tick < (sl b).tick
        · exact ih _ _ _ h j hj' hrefj hlt
        · exact le_trans htm (le_of_not_lt hlt)
    · rw [if_neg hc] at h
      rcases List.mem_cons.mp hj with rfl | hj'
      · exact absurd ⟨hrefj, htickj⟩ hc
      · exact ih _ _ _ h j hj' hrefj htickj

theorem findMin_mem {N : Nat} (sl : Fin N → Buf) (chain : List (Fin N)) (m : Fin N)
    (h : findMin sl chain = some m) : m ∈ chain := by
  rcases findMinAux_mem sl chain none UINT32MAX m h with h1 | h2
  · cases h1
  · exact h2

theorem findMin_eligible {N : Nat} (sl : Fin N → Buf) (chain : List (Fin N)) (m : Fin N)
    (h : findMin sl chain = some m) : eligible sl m := by
  have := findMinAux_refcnt sl chain none UINT32MAX m (by intro x hx; cases hx) h
  rcases this with ⟨h1, h2 | h2⟩
  · cases h2
  · exact ⟨h1, h2⟩

theorem findMin_not_eligible {N : Nat} (sl : Fin N → Buf) (chain : List (Fin N))
    (h : findMin sl chain = none) : ∀ j ∈ chain, ¬eligible sl j := by
  have := (findMinAux_none sl chain none UINT32MAX h).2
  intro j hj hel
  exact this j hj ⟨hel.1, hel.2⟩

theorem findMin_minimal {N : Nat} (sl : Fin N → Buf) (chain : List (Fin N)) (m : Fin N)
    (h : findMin sl chain = some m) :
    ∀ j ∈ chain, eligible sl j → (sl m).tick ≤ (sl j).tick := by
  intro j hj hel
  exact findMinAux_min sl chain none UINT32MAX m h j hj hel.1 hel.2

theorem findHit_none_of_nomatch {N : Nat} (sl : Fin N → Buf) (dev blockno : Nat)
    (chain : List (Fin N))
    (h : ∀ b ∈ chain, ¬((sl b).dev = dev ∧ (sl b).blockno = blockno)) :
    findHit sl dev blockno chain = none := by
  rw [findHit, List.find?_eq_none]
  intro x hx
  intro hcon
  rw [Bool.and_eq_true, beq_iff_eq, beq_iff_eq] at hcon
  exact h x hx hcon

end Xv6

namespace Xv6

/-! ### C7: exhaustion — kalloc returns null, bget panics -/

theorem findDonor_none_of_empty {C : Nat} (id : Fin C) (fl : Fin C → List Nat)
    (hk : ∀ i : Fin C, fl i = []) :
    ∀ l : List (Fin C), findDonor id fl l = none := by
  intro l
  induction l with
  | nil => rfl
  | cons i rest ih =>
    rw [findDonor, if_neg, ih]
    intro hcon
    exact hcon.2 (hk i)

theorem slowScan_exhausted {N : Nat} (dev blockno now : Nat) (target : Fin HASHBUCKET)
    (st : BState N)
    (hmiss : ∀ i : Fin N, ¬((st.slots i).dev = dev ∧ (st.slots i).blockno = blockno))
    (href : ∀ i : Fin N, (st.slots i).refcnt ≠ 0) :
    ∀ order : List (Fin HASHBUCKET), slowScan dev blockno now target order st = none := by
  intro order
  induction order with
  | nil => rfl
  | cons bucket rest ih =>
    have hh : findHit st.slots dev blockno (st.head bucket) = none :=
      findHit_none_of_nomatch _ _ _ _ (fun b _ => hmiss b)
    have hm : findMin st.slots (st.head bucket) = none := by
      cases hfm : findMin st.slots (st.head bucket) with
      | none => rfl
      | some m => exact absurd (findMin_eligible _ _ _ hfm).1 (href m)
    simp only [slowScan, hh, hm, ite_self]
    exact ih

/-- C7: when every shard's free list is empty, `kalloc` returns the null
frame together with an unchanged state — an ordinary result handed back to
the caller — whereas `bget`, when no cached slot matches the key and every
slot's reference count is nonzero (so its full scan of all buckets finds no
reference-count-0 victim), reaches `panic("ind: no buffers")` and aborts,
modelled as `none` with no surviving state. -/
theorem c7_exhaustion_normal_vs_panic {C N : Nat} (stk : KState C) (id : Fin C)
    (stb : BState N) (dev blockno now : Nat)
    (hk : ∀ i : Fin C, stk.freelist i = [])
    (hmiss : ∀ i : Fin N, ¬((stb.slots i).dev = dev ∧ (stb.slots i).blockno = blockno))
    (href : ∀ i : Fin N, (stb.slots i).refcnt ≠ 0) :
    kalloc stk id = (none, stk) ∧ bget stb dev blockno now = none := by
  constructor
  · rw [kalloc, hk id, findDonor_none_of_empty id stk.freelist hk]
  · rw [bget, findHit_none_of_nomatch _ _ _ _ (fun b _ => hmiss b)]
    exact slowScan_exhausted dev blockno now _ stb hmiss href _

/-- Witness for C7 at a concrete input: one empty shard, and a cache whose
only slot is referenced and caches a different key. -/
theorem c7_exhaustion_normal_vs_panic_witness :
    kalloc (initK 1) 0 = (none, initK 1) ∧ bget bstateBusy 0 1 5 = none :=
  c7_exhaustion_normal_vs_panic (initK 1) 0 bstateBusy 0 1 5
    (by decide) (by decide) (by decide)

end Xv6

namespace Xv6

/-! ### C10: after binit everything chains into bucket 0 -/

theorem findMinAux_stable {N : Nat} (sl : Fin N → Buf) :
    ∀ (chain : List (Fin N)) (best : Option (Fin N)) (stamp : Nat),
      (∀ j ∈ chain, ¬((sl j).refcnt = 0 ∧ (sl j).tick < stamp)) →
      findMinAux sl chain best stamp = best := by
  intro chain
  induction chain with
  | nil => intro best stamp _; rfl
  | cons b rest ih =>
    intro best stamp h
    rw [findMinAux, if_neg (h b (List.mem_cons_self b rest))]
    exact ih best stamp (fun j hj => h j (List.mem_cons_of_mem _ hj))

theorem findMin_head_of_uniform {N : Nat} (sl : Fin N → Buf) (c : Fin N)
    (rest : List (Fin N)) (hc : (sl c).refcnt = 0) (hct : (sl c).tick < UINT32MAX)
    (hrest : ∀ j ∈ rest, ¬((sl j).tick < (sl c).tick)) :
    findMin sl (c :: rest) = some c := by
  rw [findMin, findMinAux, if_pos ⟨hc, hct⟩]
  exact findMinAux_stable sl rest (some c) (sl c).tick
    (fun j hj hcon => hrest j hj hcon.2)

theorem slowScan_skip_empty {N : Nat} (dev blockno now : Nat) (target : Fin HASHBUCKET)
    (st : BState N) :
    ∀ l1 l2 : List (Fin HASHBUCKET), (∀ b ∈ l1, st.head b = []) →
      slowScan dev blockno now target (l1 ++ l2) st =
        slowScan dev blockno now target l2 st := by
  intro l1
  induction l1 with
  | nil => intro l2 _; rfl
  | cons b rest ih =>
    intro l2 hb
    have hhead : st.head b = [] := hb b (List.mem_cons_self b rest)
    have : slowScan dev blockno now target ((b :: rest) ++ l2) st =
        slowScan dev blockno now target (rest ++ l2) st := by
      simp only [List.cons_append, slowScan, hhead, findHit, List.find?_nil, ite_self,
        findMin, findMinAux]
      rfl
    rw [this]
    exact ih l2 (fun b' hb' => hb b' (List.mem_cons_of_mem _ hb'))

/-- C10: `binit` chains all `N` slots into bucket 0's chain and leaves every
other bucket empty; consequently the first `bget` of any key hashing to a
nonzero bucket takes the slow path, evicts slot 0 (the head of bucket 0's
chain), and migrates it out of bucket 0 into the target bucket, whose chain
becomes exactly that slot. -/
theorem c10_binit_bucket0_migration {N : Nat} (hN : 0 < N) (dev blockno now t0 : Nat)
    (ht0 : t0 < UINT32MAX) (htar : HASH dev blockno ≠ 0) :
    (binitState N t0).head 0 = List.finRange N ∧
    (∀ b : Fin HASHBUCKET, b ≠ 0 → (binitState N t0).head b = []) ∧
    (∃ st' : BState N,
      bget (binitState N t0) dev blockno now = some (⟨0, hN⟩, st') ∧
      st'.head (HASH dev blockno) = [⟨0, hN⟩] ∧
      st'.head 0 = (List.finRange N).erase ⟨0, hN⟩) := by
  refine ⟨by simp [binitState], fun b hb => by simp [binitState, hb], ?_⟩
  set st := binitState N t0 with hst
  set t := HASH dev blockno with htdef
  have h17 : HASHBUCKET = 17 := rfl
  -- the fast path misses: the target bucket's chain is empty
  have hheadt : st.head t = [] := by simp [hst, binitState, htar]
  -- decompose the scan order at the first occurrence of bucket 0
  have hlen : (scanOrder t).length = HASHBUCKET := by
    simp [scanOrder]
  have htpos : 0 < t.val := by
    rcases Nat.eq_zero_or_pos t.val with h0 | h0
    · exact absurd (Fin.ext h0) htar
    · exact h0
  have hklt : HASHBUCKET - t.val < (scanOrder t).length := by
    rw [hlen]
    have := t.isLt
    omega
  have hgetk : (scanOrder t)[HASHBUCKET - t.val] = 0 := by
    have h17 : HASHBUCKET - t.val < HASHBUCKET := by
      have := t.isLt
      omega
    simp only [scanOrder, List.getElem_map, List.getElem_range]
    apply Fin.ext
    show (t.val + (HASHBUCKET - t.val)) % HASHBUCKET = (0 : Fin HASHBUCKET).val
    have hle : t.val ≤ HASHBUCKET := le_of_lt t.isLt
    have : t.val + (HASHBUCKET - t.val) = HASHBUCKET := by omega
    rw [this]
    simp [HASHBUCKET]
  have hdrop : (scanOrder t).drop (HASHBUCKET - t.val) =
      (0 : Fin HASHBUCKET) :: (scanOrder t).drop (HASHBUCKET - t.val + 1) := by
    rw [List.drop_eq_getElem_cons hklt, hgetk]
  have htake : ∀ b ∈ (scanOrder t).take (HASHBUCKET - t.val), st.head b = [] := by
    intro b hb
    rw [scanOrder, ← List.map_take, List.take_range] at hb
    rcases List.mem_map.mp hb with ⟨i, hi, rfl⟩
    rw [List.mem_range] at hi
    have hiv : i < HASHBUCKET - t.val := lt_of_lt_of_le hi inf_le_left
    have hne : (⟨(t.val + i) % HASHBUCKET, Nat.mod_lt _ (by decide)⟩ : Fin HASHBUCKET) ≠ 0 := by
      intro hcon
      have := congrArg Fin.val hcon
      simp only [Fin.val_zero] at this
      have hsum : t.val + i < HASHBUCKET := by omega
      rw [Nat.mod_eq_of_lt hsum] at this
      omega
    simp [hst, binitState, hne]
  -- run the scan: skip the empty buckets before bucket 0
  have hsplit : scanOrder t =
      (scanOrder t).take (HASHBUCKET - t.val) ++ (scanOrder t).drop (HASHBUCKET - t.val) :=
    (List.take_append_drop _ _).symm
  -- bucket 0 holds the whole slot array; its minimum scan picks slot 0
  obtain ⟨n, rfl⟩ : ∃ n, N = n + 1 := ⟨N - 1, by omega⟩
  have hfr : List.finRange (n + 1) = ⟨0, hN⟩ :: (List.finRange n).map Fin.succ := by
    rw [List.finRange_succ]
    rfl
  have hhead0 : st.head 0 = ⟨0, hN⟩ :: (List.finRange n).map Fin.succ := by
    simp [hst, binitState, hfr]
  have hmin : findMin st.slots (st.head 0) = some ⟨0, hN⟩ := by
    rw [hhead0]
    refine findMin_head_of_uniform _ _ _ rfl ht0 ?_
    intro j _
    show ¬(t0 < t0)
    omega
  have hscan0 : slowScan dev blockno now t ((0 : Fin HASHBUCKET) ::
      (scanOrder t).drop (HASHBUCKET - t.val + 1)) st =
      some (⟨0, hN⟩, evict st ⟨0, hN⟩ 0 t dev blockno now) := by
    rw [slowScan]
    rw [if_neg (fun hcon => htar hcon.symm), hmin]
  have hbget : bget st dev blockno now =
      some (⟨0, hN⟩, evict st ⟨0, hN⟩ 0 t dev blockno now) := by
    rw [bget, ← htdef, hheadt]
    show slowScan dev blockno now t (scanOrder t) st = _
    rw [hsplit, slowScan_skip_empty dev blockno now t st _ _ htake, hdrop, hscan0]
  refine ⟨evict st ⟨0, hN⟩ 0 t dev blockno now, hbget, ?_, ?_⟩
  · rw [evict]
    rw [if_neg (fun hcon => htar hcon.symm)]
    show Function.update
      (Function.update st.head 0 ((st.head 0).erase ⟨0, hN⟩)) t
        (⟨0, hN⟩ :: Function.update st.head 0 ((st.head 0).erase ⟨0, hN⟩) t) t = _
    rw [Function.update_same, Function.update_noteq htar, hheadt]
  · rw [evict]
    rw [if_neg (fun hcon => htar hcon.symm)]
    show Function.update
      (Function.update st.head 0 ((st.head 0).erase ⟨0, hN⟩)) t
        (⟨0, hN⟩ :: Function.update st.head 0 ((st.head 0).erase ⟨0, hN⟩) t) 0 = _
    rw [Function.update_noteq (fun hcon => htar hcon.symm), Function.update_same]
    have : st.head 0 = List.finRange (n + 1) := by simp [hst, binitState]
    rw [this]

/-- Witness for C10 at a concrete input: one slot, key `(0,1)` hashing to
bucket 1. -/
theorem c10_binit_bucket0_migration_witness :
    (binitState 1 0).head 0 = List.finRange 1 ∧
    (∀ b : Fin HASHBUCKET, b ≠ 0 → (binitState 1 0).head b = []) ∧
    (∃ st' : BState 1,
      bget (binitState 1 0) 0 1 3 = some (⟨0, by decide⟩, st') ∧
      st'.head (HASH 0 1) = [⟨0, by decide⟩] ∧
      st'.head 0 = (List.finRange 1).erase ⟨0, by decide⟩) :=
  c10_binit_bucket0_migration (by decide) 0 1 3 0 (by decide) (by decide)

end Xv6

namespace Xv6

/-! ### C1 (amended): eviction picks the first bucket's local minimum -/

theorem slowScan_evict_spec {N : Nat} (dev blockno now : Nat) (target : Fin HASHBUCKET)
    (st : BState N)
    (htgt : ∀ i ∈ st.head target,
      ¬((st.slots i).dev = dev ∧ (st.slots i).blockno = blockno)) :
    ∀ (order : List (Fin HASHBUCKET)) (r : Fin N) (st' : BState N),
      slowScan dev blockno now target order st = some (r, st') →
      ∃ pre post : List (Fin HASHBUCKET), ∃ b : Fin HASHBUCKET,
        order = pre ++ b :: post ∧
        r ∈ st.head b ∧ eligible st.slots r ∧
        (∀ j ∈ st.head b, eligible st.slots j → (st.slots r).tick ≤ (st.slots j).tick) ∧
        (∀ b' ∈ pre, ∀ j ∈ st.head b', ¬eligible st.slots j) := by
  intro order
  induction order with
  | nil =>
    intro r st' h
    cases h
  | cons bucket rest ih =>
    intro r st' h
    have hsc : (if bucket = target then findHit st.slots dev blockno (st.head bucket)
        else none) = none := by
      by_cases hbt : bucket = target
      · rw [if_pos hbt, hbt]
        exact findHit_none_of_nomatch _ _ _ _ htgt
      · rw [if_neg hbt]
    rw [slowScan, hsc] at h
    cases hfm : findMin st.slots (st.head bucket) with
    | some m =>
      rw [hfm] at h
      rw [Option.some.injEq, Prod.mk.injEq] at h
      refine ⟨[], rest, bucket, rfl, ?_, ?_, ?_, ?_⟩
      · rw [← h.1]
        exact findMin_mem _ _ _ hfm
      · rw [← h.1]
        exact findMin_eligible _ _ _ hfm
      · rw [← h.1]
        exact findMin_minimal _ _ _ hfm
      · intro b' hb'
        cases hb'
    | none =>
      rw [hfm] at h
      rcases ih r st' h with ⟨pre, post, b, horder, hmem, hel, hmin, hpre⟩
      refine ⟨bucket :: pre, post, b, by rw [horder]; rfl, hmem, hel, hmin, ?_⟩
      intro b' hb'
      rcases List.mem_cons.mp hb' with rfl | hb''
      · exact findMin_not_eligible _ _ hfm
      · exact hpre b' hb''

/-- C1 (amended): on a cache miss (no slot on the target bucket's chain
caches the requested key), the returned victim slot had reference count 0 —
a slot with nonzero reference count is never chosen — and is the
minimum-timestamp eligible slot of the FIRST bucket, in scan order starting
from the target bucket and wrapping around, whose chain contains any
eligible (reference-count-0, timestamp below `__UINT32_MAX__`) slot; every
bucket scanned before it contains no eligible slot.  The victim is not, in
general, the globally least-recently-released slot across all buckets. -/
theorem c1_eviction_first_bucket_local_min {N : Nat} (st : BState N)
    (dev blockno now : Nat)
    (hmiss : ∀ i ∈ st.head (HASH dev blockno),
      ¬((st.slots i).dev = dev ∧ (st.slots i).blockno = blockno))
    (r : Fin N) (st' : BState N) (h : bget st dev blockno now = some (r, st')) :
    (st.slots r).refcnt = 0 ∧
    ∃ pre post : List (Fin HASHBUCKET), ∃ b : Fin HASHBUCKET,
      scanOrder (HASH dev blockno) = pre ++ b :: post ∧
      r ∈ st.head b ∧ eligible st.slots r ∧
      (∀ j ∈ st.head b, eligible st.slots j → (st.slots r).tick ≤ (st.slots j).tick) ∧
      (∀ b' ∈ pre, ∀ j ∈ st.head b', ¬eligible st.slots j) := by
  rw [bget, findHit_none_of_nomatch _ _ _ _ hmiss] at h
  rcases slowScan_evict_spec dev blockno now _ st hmiss _ r st' h with
    ⟨pre, post, b, horder, hmem, hel, hmin, hpre⟩
  exact ⟨hel.1, pre, post, b, horder, hmem, hel, hmin, hpre⟩

/-- Witness for the amended C1 at a concrete input: the `bstateTwo` miss for
key `(0,1)`. -/
theorem c1_eviction_first_bucket_local_min_witness :
    (bstateTwo.slots 0).refcnt = 0 ∧
    ∃ pre post : List (Fin HASHBUCKET), ∃ b : Fin HASHBUCKET,
      scanOrder (HASH 0 1) = pre ++ b :: post ∧
      (0 : Fin 2) ∈ bstateTwo.head b ∧ eligible bstateTwo.slots 0 ∧
      (∀ j ∈ bstateTwo.head b, eligible bstateTwo.slots j →
        (bstateTwo.slots 0).tick ≤ (bstateTwo.slots j).tick) ∧
      (∀ b' ∈ pre, ∀ j ∈ bstateTwo.head b', ¬eligible bstateTwo.slots j) :=
  c1_eviction_first_bucket_local_min bstateTwo 0 1 200 (by decide) 0
    (evict bstateTwo 0 (HASH 0 1) (HASH 0 1) 0 1 200) (by decide)

end Xv6

namespace Xv6

/-! ### C2 (amended): local lock held throughout, at most two locks -/

theorem probeTrace_lock_ok {C : Nat} (id : Fin C) (fl : Fin C → List Nat) :
    ∀ l : List (Fin C),
      kallocLockOk id true none (probeTrace id fl l ++ [KEvent.rel id]) = true := by
  intro l
  induction l with
  | nil =>
    simp [probeTrace, kallocLockOk]
  | cons i rest ih =>
    by_cases hid : i = id
    · rw [probeTrace, if_pos hid]
      exact ih
    · by_cases hfl : fl i = []
      · rw [probeTrace, if_neg hid, if_pos hfl]
        simp only [List.cons_append, kallocLockOk, decide_eq_true hid, Bool.true_and]
        simpa using ih
      · rw [probeTrace, if_neg hid, if_neg hfl]
        simp [kallocLockOk, hid]

/-- C2 (amended): `kalloc` does NOT release the caller's shard lock before
probing; instead the shard-lock trace of every `kalloc` call obeys: the local
lock is acquired first and released last (so it is held during the entire
probe of the other shards), a donor shard's lock is only ever acquired while
exactly the local lock is held, and every donor lock is released before the
next one is acquired — hence at most two shard locks (the local one plus one
probed shard's) are ever held simultaneously, and all are released by
return. -/
theorem c2_local_held_at_most_two_locks {C : Nat} (st : KState C) (id : Fin C) :
    kallocLockOk id false none (kallocTrace st id) = true := by
  rw [kallocTrace]
  by_cases h : st.freelist id = []
  · rw [if_pos h]
    simp only [kallocLockOk, Bool.and_eq_true, decide_eq_true_eq]
    exact ⟨trivial, probeTrace_lock_ok id st.freelist (List.finRange C)⟩
  · rw [if_neg h]
    simp [kallocLockOk]

/-! ### C3 (amended): at most one bucket lock; chain surgery under its own lock -/

theorem slowScanTrace_lock_ok {N : Nat} (sl : Fin N → Buf)
    (hd : Fin HASHBUCKET → List (Fin N)) (dev blockno : Nat) (target : Fin HASHBUCKET) :
    ∀ order : List (Fin HASHBUCKET),
      bucketLockOk none (slowScanTrace sl hd dev blockno target order) = true := by
  intro order
  induction order with
  | nil => rfl
  | cons bucket rest ih =>
    rw [slowScanTrace]
    cases hfh : (if bucket = target then findHit sl dev blockno (hd bucket) else none) with
    | some b =>
      simp [bucketLockOk]
    | none =>
      cases hfm : findMin sl (hd bucket) with
      | some m =>
        by_cases hbt : bucket = target
        · rw [if_pos hbt]
          subst hbt
          simp [bucketLockOk]
        · rw [if_neg hbt]
          simp [bucketLockOk]
      | none =>
        simp [bucketLockOk, ih]

theorem bucketLockOk_fast_miss (t : Fin HASHBUCKET) (T : List BEvent) :
    bucketLockOk none (BEvent.acqB t :: BEvent.relB t :: BEvent.acqH :: T) =
      bucketLockOk none T := by
  simp [bucketLockOk]

/-- C3 (amended): the cross-bucket migration of the eviction step is NOT
performed under both bucket locks at once; instead the bucket-lock trace of
every `bget` call obeys: at most one bucket lock is held at any time (a
bucket lock is only acquired while none is held — the victim bucket's lock
is released before the target bucket's is acquired), the unlink happens
while exactly the victim bucket's lock is held, the relink happens while
exactly the target bucket's lock is held, and no bucket lock survives the
call.  Mutual exclusion of the migration is provided by the global
serialization lock, not by double bucket locking. -/
theorem c3_one_bucket_lock_at_a_time {N : Nat} (st : BState N) (dev blockno : Nat) :
    bucketLockOk none (bgetTrace st dev blockno) = true := by
  rw [bgetTrace]
  cases hfh : findHit st.slots dev blockno (st.head (HASH dev blockno)) with
  | some b =>
    simp [bucketLockOk]
  | none =>
    rw [bucketLockOk_fast_miss]
    exact slowScanTrace_lock_ok st.slots st.head dev blockno (HASH dev blockno) _

end Xv6

namespace Xv6

/-! ### C4: the bucket chains always partition the N slots -/

theorem headsMS_update {K : Nat} {α : Type} (f : Fin K → List α) (b : Fin K) (l : List α) :
    headsMS (Function.update f b l) + (f b : Multiset α) = headsMS f + (l : Multiset α) := by
  have hfun : (fun x => ((Function.update f b l x : List α) : Multiset α)) =
      Function.update (fun x => ((f x : List α) : Multiset α)) b (l : Multiset α) := by
    funext j
    exact Function.apply_update (fun _ y => ((y : List α) : Multiset α)) f b l j
  rw [headsMS, headsMS]
  calc (∑ x : Fin K, ((Function.update f b l x : List α) : Multiset α)) + (f b : Multiset α)
      = (∑ x : Fin K,
          Function.update (fun x => ((f x : List α) : Multiset α)) b (l : Multiset α) x) +
        (f b : Multiset α) := by rw [hfun]
    _ = ((l : Multiset α) + ∑ x in Finset.univ \ {b}, ((f x : List α) : Multiset α)) +
        (f b : Multiset α) := by
        rw [Finset.sum_update_of_mem (Finset.mem_univ b)]
    _ = ((∑ x in Finset.univ \ {b}, ((f x : List α) : Multiset α)) + (f b : Multiset α)) +
        (l : Multiset α) := by abel
    _ = (∑ x : Fin K, ((f x : List α) : Multiset α)) + (l : Multiset α) := by
        rw [Finset.sum_eq_sum_diff_singleton_add (Finset.mem_univ b)
          (fun x => ((f x : List α) : Multiset α))]

theorem evict_head_ne {N : Nat} (st : BState N) (m : Fin N) (bucket target : Fin HASHBUCKET)
    (dev blockno now : Nat) (hbt : bucket ≠ target) :
    (evict st m bucket target dev blockno now).head =
      Function.update (Function.update st.head bucket ((st.head bucket).erase m)) target
        (m :: Function.update st.head bucket ((st.head bucket).erase m) target) := by
  rw [evict, if_neg hbt]

theorem evict_head_eq {N : Nat} (st : BState N) (m : Fin N) (bucket target : Fin HASHBUCKET)
    (dev blockno now : Nat) (hbt : bucket = target) :
    (evict st m bucket target dev blockno now).head = st.head := by
  rw [evict, if_pos hbt]

theorem chainsMS_evict {N : Nat} (st : BState N) (m : Fin N) (bucket target : Fin HASHBUCKET)
    (dev blockno now : Nat) (hm : m ∈ st.head bucket) :
    chainsMS (evict st m bucket target dev blockno now) = chainsMS st := by
  by_cases hbt : bucket = target
  · rw [chainsMS, chainsMS, evict_head_eq st m bucket target dev blockno now hbt]
  · rw [chainsMS, chainsMS, evict_head_ne st m bucket target dev blockno now hbt]
    set h1 := Function.update st.head bucket ((st.head bucket).erase m) with hh1
    set T := (h1 target : Multiset (Fin N)) with hT
    set E := ((st.head bucket).erase m : Multiset (Fin N)) with hE
    have e1 : headsMS (Function.update h1 target (m :: h1 target)) + T =
        headsMS h1 + ((m :: h1 target : List (Fin N)) : Multiset (Fin N)) :=
      headsMS_update h1 target (m :: h1 target)
    have e2 : headsMS h1 + (st.head bucket : Multiset (Fin N)) =
        headsMS st.head + E :=
      headsMS_update st.head bucket ((st.head bucket).erase m)
    have hperm : ((st.head bucket : List (Fin N)) : Multiset (Fin N)) = m ::ₘ E := by
      exact Multiset.coe_eq_coe.mpr (List.perm_cons_erase hm)
    rw [hperm] at e2
    have key : headsMS (Function.update h1 target (m :: h1 target)) + (T + E) =
        headsMS st.head + (T + E) := by
      calc headsMS (Function.update h1 target (m :: h1 target)) + (T + E)
          = (headsMS (Function.update h1 target (m :: h1 target)) + T) + E := by abel
        _ = (headsMS h1 + ((m :: h1 target : List (Fin N)) : Multiset (Fin N))) + E := by
            rw [e1]
        _ = (headsMS h1 + (m ::ₘ T)) + E := by rw [Multiset.cons_coe]
        _ = (headsMS h1 + (m ::ₘ E)) + T := by
            simp only [← Multiset.singleton_add]
            abel
        _ = (headsMS st.head + E) + T := by rw [e2]
        _ = headsMS st.head + (T + E) := by abel
    exact add_right_cancel key

theorem chainsMS_slowScan {N : Nat} (dev blockno now : Nat) (target : Fin HASHBUCKET)
    (st : BState N) :
    ∀ (order : List (Fin HASHBUCKET)) (r : Fin N) (st' : BState N),
      slowScan dev blockno now target order st = some (r, st') →
      chainsMS st' = chainsMS st := by
  intro order
  induction order with
  | nil => intro r st' h; cases h
  | cons bucket rest ih =>
    intro r st' h
    rw [slowScan] at h
    cases hfh : (if bucket = target then findHit st.slots dev blockno (st.head bucket)
        else none) with
    | some b =>
      rw [hfh] at h
      rw [Option.some.injEq, Prod.mk.injEq] at h
      rw [← h.2]
      rfl
    | none =>
      rw [hfh] at h
      cases hfm : findMin st.slots (st.head bucket) with
      | some m =>
        rw [hfm] at h
        rw [Option.some.injEq, Prod.mk.injEq] at h
        rw [← h.2]
        exact chainsMS_evict st m bucket target dev blockno now (findMin_mem _ _ _ hfm)
      | none =>
        rw [hfm] at h
        exact ih r st' h

theorem chainsMS_bget {N : Nat} (st : BState N) (dev blockno now : Nat) (r : Fin N)
    (st' : BState N) (h : bget st dev blockno now = some (r, st')) :
    chainsMS st' = chainsMS st := by
  rw [bget] at h
  cases hfh : findHit st.slots dev blockno (st.head (HASH dev blockno)) with
  | some b =>
    rw [hfh] at h
    rw [Option.some.injEq, Prod.mk.injEq] at h
    rw [← h.2]
    rfl
  | none =>
    rw [hfh] at h
    exact chainsMS_slowScan dev blockno now _ st _ r st' h

theorem chainsMS_cstep {N : Nat} (st : BState N) (op : COp N) (st' : BState N)
    (h : cstep st op = some st') : chainsMS st' = chainsMS st := by
  cases op with
  | get d b now =>
    rw [cstep] at h
    cases hg : bget st d b now with
    | none => rw [hg] at h; cases h
    | some p =>
      rw [hg, Option.map_some'] at h
      rw [Option.some.injEq] at h
      rw [← h]
      exact chainsMS_bget st d b now p.1 p.2 (by rw [hg])
  | relse i now => rw [cstep, Option.some.injEq] at h; rw [← h]; rfl
  | pin i => rw [cstep, Option.some.injEq] at h; rw [← h]; rfl
  | unpin i => rw [cstep, Option.some.injEq] at h; rw [← h]; rfl
  | read i => rw [cstep, Option.some.injEq] at h; rw [← h]; rfl
  | write i => rw [cstep, Option.some.injEq] at h; rw [← h]

theorem chainsMS_cexec {N : Nat} :
    ∀ (ops : List (COp N)) (st st' : BState N),
      cexec st ops = some st' → chainsMS st' = chainsMS st := by
  intro ops
  induction ops with
  | nil =>
    intro st st' h
    rw [cexec, Option.some.injEq] at h
    rw [← h]
  | cons op rest ih =>
    intro st st' h
    rw [cexec] at h
    cases hs : cstep st op with
    | none => rw [hs] at h; cases h
    | some st1 =>
      rw [hs] at h
      have h2 : cexec st1 rest = some st' := h
      rw [ih st1 st' h2]
      exact chainsMS_cstep st op st1 hs

/-- C4: starting from the state `binit` builds, after any finite sequence of
cache operations that has not panicked, the multiset of slot indices on all
`HASHBUCKET` bucket chains is exactly the `N` slots of the slot array — every
slot is on exactly one chain, none is duplicated, none is missing.  (Any
point between operations is the end of some prefix, so this holds at every
intermediate state as well.) -/
theorem c4_chains_partition {N : Nat} (t0 : Nat) (ops : List (COp N)) (st' : BState N)
    (h : cexec (binitState N t0) ops = some st') :
    chainsMS st' = ((List.finRange N : List (Fin N)) : Multiset (Fin N)) := by
  rw [chainsMS_cexec ops _ st' h]
  have hh : (binitState N t0).head = fun b => if b = 0 then List.finRange N else [] := rfl
  simp only [chainsMS, headsMS, hh]
  rw [Finset.sum_eq_single_of_mem (0 : Fin HASHBUCKET) (Finset.mem_univ 0)]
  · rw [if_pos rfl]
  · intro b _ hb
    rw [if_neg hb]
    rfl

/-- Witness for C4 at a concrete input: one slot, a pin and a get. -/
theorem c4_chains_partition_witness :
    chainsMS (bpin (binitState 1 0) 0) =
      ((List.finRange 1 : List (Fin 1)) : Multiset (Fin 1)) :=
  c4_chains_partition 0 [COp.pin 0] (bpin (binitState 1 0) 0) rfl

end Xv6

namespace Xv6

/-! ### C5: allocator frame conservation -/

theorem fastIters_le : ∀ l : List Nat, 2 * fastIters l ≤ l.length
  | [] => by rw [fastIters]; simp
  | [_] => by rw [fastIters]; simp
  | _ :: _ :: rest => by
    rw [fastIters]
    have := fastIters_le rest
    simp only [List.length_cons]
    omega

theorem fastIters_lt_length (l : List Nat) (h : l ≠ []) : fastIters l < l.length := by
  have h2 := fastIters_le l
  have h1 : 0 < l.length := List.length_pos.mpr h
  omega

theorem findDonor_spec {C : Nat} (id : Fin C) (fl : Fin C → List Nat) :
    ∀ (l : List (Fin C)) (i : Fin C), findDonor id fl l = some i → i ≠ id ∧ fl i ≠ [] := by
  intro l
  induction l with
  | nil => intro i h; cases h
  | cons j rest ih =>
    intro i h
    rw [findDonor] at h
    by_cases hc : j ≠ id ∧ fl j ≠ []
    · rw [if_pos hc, Option.some.injEq] at h
      rw [← h]
      exact hc
    · rw [if_neg hc] at h
      exact ih i h

theorem cancel_ms {α : Type} {a b c : Multiset α} (h : a + c = b + c) : a = b :=
  add_right_cancel h

theorem kfree_headsMS {C : Nat} (st : KState C) (id : Fin C) (pa : Nat) :
    headsMS (kfree st id pa).freelist = headsMS st.freelist + {pa} := by
  apply cancel_ms (c := (st.freelist id : Multiset Nat))
  rw [kfree]
  calc headsMS (Function.update st.freelist id (pa :: st.freelist id)) +
        (st.freelist id : Multiset Nat)
      = headsMS st.freelist + ((pa :: st.freelist id : List Nat) : Multiset Nat) :=
        headsMS_update st.freelist id (pa :: st.freelist id)
    _ = headsMS st.freelist + (pa ::ₘ (st.freelist id : Multiset Nat)) := rfl
    _ = headsMS st.freelist + ({pa} + (st.freelist id : Multiset Nat)) := by
        rw [Multiset.singleton_add]
    _ = (headsMS st.freelist + {pa}) + (st.freelist id : Multiset Nat) := by abel

theorem kalloc_headsMS {C : Nat} (st : KState C) (id : Fin C) :
    headsMS (kalloc st id).2.freelist + optMS (kalloc st id).1 = headsMS st.freelist := by
  cases hl : st.freelist id with
  | cons r rest =>
    simp only [kalloc, hl]
    rw [optMS]
    have e : headsMS (Function.update st.freelist id rest) +
        (r ::ₘ (rest : Multiset Nat)) =
        headsMS st.freelist + (rest : Multiset Nat) := by
      have h0 := headsMS_update st.freelist id rest
      rw [hl] at h0
      exact h0
    apply cancel_ms (c := (rest : Multiset Nat))
    calc headsMS (Function.update st.freelist id rest) + {r} + (rest : Multiset Nat)
        = headsMS (Function.update st.freelist id rest) +
            ({r} + (rest : Multiset Nat)) := by rw [add_assoc]
      _ = headsMS (Function.update st.freelist id rest) +
            (r ::ₘ (rest : Multiset Nat)) := by rw [Multiset.singleton_add]
      _ = headsMS st.freelist + (rest : Multiset Nat) := e
  | nil =>
    cases hd : findDonor id st.freelist (List.finRange C) with
    | none =>
      simp only [kalloc, hl, hd]
      rw [optMS]
      exact add_zero _
    | some i =>
      rcases findDonor_spec id st.freelist (List.finRange C) i hd with ⟨hne, hnil⟩
      cases hdrop : (st.freelist i).drop (fastIters (st.freelist i)) with
      | nil =>
        exfalso
        have h1 := fastIters_lt_length (st.freelist i) hnil
        have h2 : (st.freelist i).length ≤ fastIters (st.freelist i) :=
          List.drop_eq_nil_iff.mp hdrop
        omega
      | cons r rest =>
        simp only [kalloc, hl, hd, hdrop]
        rw [optMS]
        set T := ((st.freelist i).take (fastIters (st.freelist i)) : Multiset Nat) with hT
        set fl1 := Function.update st.freelist i
          ((st.freelist i).take (fastIters (st.freelist i))) with hfl1
        have e1 : headsMS (Function.update fl1 id rest) = headsMS fl1 + (rest : Multiset Nat) := by
          have h0 := headsMS_update fl1 id rest
          have hfl1id : fl1 id = [] := by
            rw [hfl1, Function.update_noteq (fun hcon => hne hcon.symm) _ st.freelist, hl]
          rw [hfl1id, Multiset.coe_nil, add_zero] at h0
          exact h0
        have e2 : headsMS fl1 + (T + (r ::ₘ (rest : Multiset Nat))) =
            headsMS st.freelist + T := by
          have h0 := headsMS_update st.freelist i
            ((st.freelist i).take (fastIters (st.freelist i)))
          have hsplit : ((st.freelist i : List Nat) : Multiset Nat) =
              T + (r ::ₘ (rest : Multiset Nat)) := by
            calc ((st.freelist i : List Nat) : Multiset Nat)
                = (((st.freelist i).take (fastIters (st.freelist i)) ++
                    (st.freelist i).drop (fastIters (st.freelist i)) : List Nat) :
                    Multiset Nat) := by
                  rw [List.take_append_drop]
              _ = T + ((st.freelist i).drop (fastIters (st.freelist i)) : Multiset Nat) := by
                  rw [← Multiset.coe_add]
              _ = T + (r ::ₘ (rest : Multiset Nat)) := by rw [hdrop]; rfl
          rw [hsplit] at h0
          exact h0
        rw [e1]
        apply cancel_ms (c := T)
        calc headsMS fl1 + (rest : Multiset Nat) + {r} + T
            = headsMS fl1 + (T + ({r} + (rest : Multiset Nat))) := by abel
          _ = headsMS fl1 + (T + (r ::ₘ (rest : Multiset Nat))) := by
              rw [Multiset.singleton_add]
          _ = headsMS st.freelist + T := e2

end Xv6

namespace Xv6

theorem kalloc_frame_mem {C : Nat} (st : KState C) (id : Fin C) (p : Nat)
    (h : (kalloc st id).1 = some p) : p ∈ headsMS st.freelist := by
  have hc := kalloc_headsMS st id
  rw [h, optMS] at hc
  rw [← hc]
  exact Multiset.mem_add.mpr (Or.inr (Multiset.mem_singleton_self p))

theorem totalMS_kstep_alloc {C : Nat} (st : AState C) (id : Fin C) :
    totalMS (kstep st (KOp.alloc id)) = totalMS st := by
  cases hk : kalloc st.ks id with
  | mk r ks' =>
    cases r with
    | some p =>
      simp only [kstep, hk]
      rw [totalMS, totalMS]
      have hc := kalloc_headsMS st.ks id
      rw [hk, optMS] at hc
      calc headsMS ks'.freelist + ((p :: st.allocated : List Nat) : Multiset Nat)
          = headsMS ks'.freelist + (p ::ₘ (st.allocated : Multiset Nat)) := rfl
        _ = headsMS ks'.freelist + ({p} + (st.allocated : Multiset Nat)) := by
            rw [Multiset.singleton_add]
        _ = (headsMS ks'.freelist + {p}) + (st.allocated : Multiset Nat) := by abel
        _ = headsMS st.ks.freelist + (st.allocated : Multiset Nat) := by rw [hc]
    | none =>
      simp only [kstep, hk]
      rw [totalMS, totalMS]
      have hc := kalloc_headsMS st.ks id
      rw [hk, optMS, add_zero] at hc
      rw [hc]

theorem totalMS_kstep_free {C : Nat} (st : AState C) (id : Fin C) (pa : Nat)
    (hpa : pa ∈ st.allocated) :
    totalMS (kstep st (KOp.free id pa)) = totalMS st := by
  rw [kstep, totalMS, totalMS]
  show headsMS (kfree st.ks id pa).freelist +
    ((st.allocated.erase pa : List Nat) : Multiset Nat) = _
  rw [kfree_headsMS]
  have hperm : ((st.allocated : List Nat) : Multiset Nat) =
      pa ::ₘ ((st.allocated.erase pa : List Nat) : Multiset Nat) :=
    Multiset.coe_eq_coe.mpr (List.perm_cons_erase hpa)
  calc headsMS st.ks.freelist + {pa} + ((st.allocated.erase pa : List Nat) : Multiset Nat)
      = headsMS st.ks.freelist +
          ({pa} + ((st.allocated.erase pa : List Nat) : Multiset Nat)) := by rw [add_assoc]
    _ = headsMS st.ks.freelist +
          (pa ::ₘ ((st.allocated.erase pa : List Nat) : Multiset Nat)) := by
        rw [Multiset.singleton_add]
    _ = headsMS st.ks.freelist + ((st.allocated : List Nat) : Multiset Nat) := by
        rw [← hperm]

theorem totalMS_kexec {C : Nat} :
    ∀ (ops : List (KOp C)) (st : AState C),
      LegalRun st ops → totalMS (kexec st ops) = totalMS st := by
  intro ops
  induction ops with
  | nil => intro st _; rfl
  | cons op rest ih =>
    intro st hleg
    cases op with
    | alloc id =>
      rw [kexec]
      have hleg2 : LegalRun (kstep st (KOp.alloc id)) rest := hleg
      rw [ih _ hleg2, totalMS_kstep_alloc]
    | free id pa =>
      rw [kexec]
      have h1 : pa ∈ st.allocated := hleg.1
      have h2 : LegalRun (kstep st (KOp.free id pa)) rest := hleg.2
      rw [ih _ h2, totalMS_kstep_free st id pa h1]

theorem LegalRun_of_append {C : Nat} :
    ∀ (p q : List (KOp C)) (st : AState C), LegalRun st (p ++ q) → LegalRun st p := by
  intro p
  induction p with
  | nil => intro q st _; trivial
  | cons op rest ih =>
    intro q st h
    cases op with
    | alloc id =>
      show LegalRun (kstep st (KOp.alloc id)) rest
      exact ih q _ h
    | free id pa =>
      exact ⟨h.1, ih q _ h.2⟩

theorem kexec_append {C : Nat} :
    ∀ (p q : List (KOp C)) (st : AState C), kexec st (p ++ q) = kexec (kexec st p) q := by
  intro p
  induction p with
  | nil => intro q st; rfl
  | cons op rest ih =>
    intro q st
    rw [List.cons_append, kexec, kexec]
    exact ih q _

theorem freerangeList_headsMS {C : Nat} (id : Fin C) :
    ∀ (frames : List Nat) (st : KState C),
      headsMS (freerangeList st id frames).freelist =
        headsMS st.freelist + (frames : Multiset Nat) := by
  intro frames
  induction frames with
  | nil => intro st; rw [freerangeList, Multiset.coe_nil, add_zero]
  | cons p rest ih =>
    intro st
    rw [freerangeList, ih, kfree_headsMS]
    calc headsMS st.freelist + {p} + (rest : Multiset Nat)
        = headsMS st.freelist + ({p} + (rest : Multiset Nat)) := by rw [add_assoc]
      _ = headsMS st.freelist + (p ::ₘ (rest : Multiset Nat)) := by
          rw [Multiset.singleton_add]
      _ = headsMS st.freelist + ((p :: rest : List Nat) : Multiset Nat) := rfl

theorem headsMS_initK (C : Nat) : headsMS (initK C).freelist = 0 := by
  rw [initK, headsMS]
  simp

theorem totalMS_initA {C : Nat} (id : Fin C) (frames : List Nat) :
    totalMS (initA C id frames) = (frames : Multiset Nat) := by
  rw [totalMS, initA]
  show headsMS (freerangeList (initK C) id frames).freelist +
    (([] : List Nat) : Multiset Nat) = _
  rw [freerangeList_headsMS, headsMS_initK, zero_add, Multiset.coe_nil, add_zero]

/-- C5: for every legal sequence of allocator operations after `populate`
(legal: each `kfree` frees a frame currently handed out), the multiset of
frames on all shard free lists plus the frames handed out and not yet freed
is exactly the multiset `populate` created — conservation, no frame in two
shards' lists, no frame duplicated.  Moreover when the populated frames are
distinct, any frame `kalloc` returns at any point of the run is not among
the currently outstanding frames, so no frame is handed out twice without an
intervening free. -/
theorem c5_frame_conservation {C : Nat} (id0 : Fin C) (frames : List Nat)
    (ops : List (KOp C)) (hleg : LegalRun (initA C id0 frames) ops) :
    totalMS (kexec (initA C id0 frames) ops) = (frames : Multiset Nat) ∧
    (frames.Nodup →
      ∀ (p : List (KOp C)) (i : Fin C) (rest2 : List (KOp C)),
        ops = p ++ KOp.alloc i :: rest2 →
        ∀ fr : Nat, (kalloc (kexec (initA C id0 frames) p).ks i).1 = some fr →
          fr ∉ (kexec (initA C id0 frames) p).allocated) := by
  constructor
  · rw [totalMS_kexec ops _ hleg, totalMS_initA]
  · intro hnd p i rest2 hops fr hfr hmem
    have hlegp : LegalRun (initA C id0 frames) p := by
      rw [hops] at hleg
      exact LegalRun_of_append p _ _ hleg
    have hndms : Multiset.Nodup (totalMS (kexec (initA C id0 frames) p)) := by
      rw [totalMS_kexec p _ hlegp, totalMS_initA]
      exact Multiset.coe_nodup.mpr hnd
    rw [totalMS] at hndms
    have hdisj := (Multiset.nodup_add.mp hndms).2.2
    have hin : fr ∈ headsMS (kexec (initA C id0 frames) p).ks.freelist :=
      kalloc_frame_mem _ i fr hfr
    exact (Multiset.disjoint_left.mp hdisj hin) (Multiset.mem_coe.mpr hmem)

/-- Witness for C5 at a concrete input: one shard populated with `[4,5]`,
one allocation. -/
theorem c5_frame_conservation_witness :
    totalMS (kexec (initA 1 0 [4, 5]) [KOp.alloc 0]) = (([4, 5] : List Nat) : Multiset Nat) ∧
    (([4, 5] : List Nat).Nodup →
      ∀ (p : List (KOp 1)) (i : Fin 1) (rest2 : List (KOp 1)),
        [KOp.alloc 0] = p ++ KOp.alloc i :: rest2 →
        ∀ fr : Nat, (kalloc (kexec (initA 1 0 [4, 5]) p).ks i).1 = some fr →
          fr ∉ (kexec (initA 1 0 [4, 5]) p).allocated) :=
  c5_frame_conservation 0 [4, 5] [KOp.alloc 0] trivial

end Xv6

namespace Xv6

/-! ### C8: reference-count balance -/

theorem uinc_eq (x : Nat) (h : x + 1 < UMOD) : uinc x = x + 1 := by
  rw [UMOD] at h
  rw [uinc, UMOD]
  omega

theorem udec_eq (x : Nat) (h1 : 0 < x) (h2 : x < UMOD) : udec x = x - 1 := by
  rw [UMOD] at h2
  rw [udec, UINT32MAX, UMOD]
  omega

theorem evict_slots {N : Nat} (st : BState N) (m : Fin N) (bucket target : Fin HASHBUCKET)
    (dev blockno now : Nat) :
    (evict st m bucket target dev blockno now).slots =
      Function.update st.slots m ⟨dev, blockno, false, 1, now⟩ := by
  by_cases hbt : bucket = target <;> simp [evict, hbt]

theorem slowScan_refcnt {N : Nat} (dev blockno now : Nat) (target : Fin HASHBUCKET)
    (st : BState N) :
    ∀ (order : List (Fin HASHBUCKET)) (r : Fin N) (st' : BState N),
      slowScan dev blockno now target order st = some (r, st') →
      (st'.slots r).refcnt = uinc (st.slots r).refcnt ∧
      ∀ i : Fin N, i ≠ r → (st'.slots i).refcnt = (st.slots i).refcnt := by
  intro order
  induction order with
  | nil => intro r st' h; cases h
  | cons bucket rest ih =>
    intro r st' h
    rw [slowScan] at h
    cases hfh : (if bucket = target then findHit st.slots dev blockno (st.head bucket)
        else none) with
    | some b =>
      rw [hfh, Option.some.injEq, Prod.mk.injEq] at h
      obtain ⟨hbr, hst⟩ := h
      subst hbr
      rw [← hst]
      constructor
      · show (Function.update st.slots b
          { st.slots b with refcnt := uinc (st.slots b).refcnt, tick := now } b).refcnt = _
        rw [Function.update_same]
      · intro i hi
        show (Function.update st.slots b
          { st.slots b with refcnt := uinc (st.slots b).refcnt, tick := now } i).refcnt = _
        rw [Function.update_noteq hi]
    | none =>
      rw [hfh] at h
      cases hfm : findMin st.slots (st.head bucket) with
      | some m =>
        rw [hfm, Option.some.injEq, Prod.mk.injEq] at h
        obtain ⟨hmr, hst⟩ := h
        subst hmr
        rw [← hst]
        have hel := findMin_eligible _ _ _ hfm
        have hsl := evict_slots st m bucket target dev blockno now
        constructor
        · rw [hsl, Function.update_same, hel.1]
          show (1 : Nat) = uinc 0
          decide
        · intro i hi
          rw [hsl, Function.update_noteq hi]
      | none =>
        rw [hfm] at h
        exact ih r st' h

theorem bget_refcnt {N : Nat} (st : BState N) (dev blockno now : Nat) (r : Fin N)
    (st' : BState N) (h : bget st dev blockno now = some (r, st')) :
    (st'.slots r).refcnt = uinc (st.slots r).refcnt ∧
    ∀ i : Fin N, i ≠ r → (st'.slots i).refcnt = (st.slots i).refcnt := by
  rw [bget] at h
  cases hfh : findHit st.slots dev blockno (st.head (HASH dev blockno)) with
  | some b =>
    rw [hfh, Option.some.injEq, Prod.mk.injEq] at h
    obtain ⟨hbr, hst⟩ := h
    subst hbr
    rw [← hst]
    constructor
    · show (Function.update st.slots b
        { st.slots b with refcnt := uinc (st.slots b).refcnt, tick := now } b).refcnt = _
      rw [Function.update_same]
    · intro i hi
      show (Function.update st.slots b
        { st.slots b with refcnt := uinc (st.slots b).refcnt, tick := now } i).refcnt = _
      rw [Function.update_noteq hi]
  | none =>
    rw [hfh] at h
    exact slowScan_refcnt dev blockno now _ st _ r st' h

end Xv6

namespace Xv6

theorem cexecCnt_refcnt {N : Nat} :
    ∀ (ops : List (COp N)) (st : BState N) (inc dec : Fin N → Nat),
      (∀ i, dec i ≤ inc i) →
      (∀ i, (st.slots i).refcnt = inc i - dec i) →
      (∀ i, inc i + ops.length < UMOD) →
      MatchedRun st inc dec ops →
      ∀ (st2 : BState N) (inc2 dec2 : Fin N → Nat),
        cexecCnt st inc dec ops = some (st2, inc2, dec2) →
        ∀ i, dec2 i ≤ inc2 i ∧ (st2.slots i).refcnt = inc2 i - dec2 i := by
  intro ops
  induction ops with
  | nil =>
    intro st inc dec hle hrc _ _ st2 inc2 dec2 h i
    rw [cexecCnt, Option.some.injEq] at h
    cases h
    exact ⟨hle i, hrc i⟩
  | cons op rest ih =>
    intro st inc dec hle hrc hbound hm st2 inc2 dec2 h i
    cases op with
    | get d b now =>
      cases hg : bget st d b now with
      | none =>
        simp only [cexecCnt, hg] at h
        exact Option.noConfusion h
      | some pr =>
        obtain ⟨r, st1⟩ := pr
        simp only [cexecCnt, hg] at h
        have hM2 : MatchedRun st1 (bump inc r) dec rest := by
          simp only [MatchedRun, hg] at hm
          exact hm
        have hb := bget_refcnt st d b now r st1 hg
        have hle2 : ∀ j, dec j ≤ bump inc r j := by
          intro j
          rw [bump]
          by_cases hj : j = r
          · subst hj
            rw [Function.update_same]
            exact le_trans (hle j) (Nat.le_succ _)
          · rw [Function.update_noteq hj]
            exact hle j
        have hbound2 : ∀ j, bump inc r j + rest.length < UMOD := by
          intro j
          have hbj := hbound j
          rw [List.length_cons] at hbj
          rw [bump]
          by_cases hj : j = r
          · subst hj
            rw [Function.update_same]
            omega
          · rw [Function.update_noteq hj]
            omega
        have hrc2 : ∀ j, (st1.slots j).refcnt = bump inc r j - dec j := by
          intro j
          by_cases hj : j = r
          · subst hj
            rw [hb.1, hrc j]
            have hbj := hbound j
            rw [List.length_cons] at hbj
            have hlj := hle j
            have hlt : (inc j - dec j) + 1 < UMOD := by omega
            rw [uinc_eq _ hlt, bump, Function.update_same]
            omega
          · rw [hb.2 j hj, hrc j, bump, Function.update_noteq hj]
        exact ih st1 (bump inc r) dec hle2 hrc2 hbound2 hM2 st2 inc2 dec2 h i
    | relse i0 now =>
      simp only [cexecCnt] at h
      have hm2 : dec i0 < inc i0 ∧ MatchedRun (brelse st i0 now) inc (bump dec i0) rest := by
        simp only [MatchedRun] at hm
        exact hm
      have hle2 : ∀ j, bump dec i0 j ≤ inc j := by
        intro j
        rw [bump]
        by_cases hj : j = i0
        · subst hj
          rw [Function.update_same]
          exact hm2.1
        · rw [Function.update_noteq hj]
          exact hle j
      have hrc2 : ∀ j, ((brelse st i0 now).slots j).refcnt = inc j - bump dec i0 j := by
        intro j
        by_cases hj : j = i0
        · subst hj
          have hself : ((brelse st j now).slots j).refcnt = udec (st.slots j).refcnt := by
            simp [brelse, Function.update_same]
          rw [hself, hrc j]
          have hbj := hbound j
          rw [List.length_cons] at hbj
          have hp : 0 < inc j - dec j := by
            have := hm2.1
            omega
          have hq : inc j - dec j < UMOD := by omega
          rw [udec_eq _ hp hq, bump, Function.update_same]
          omega
        · have hother : ((brelse st i0 now).slots j).refcnt = (st.slots j).refcnt := by
            simp [brelse, Function.update_noteq hj]
          rw [hother, hrc j, bump, Function.update_noteq hj]
      have hbound2 : ∀ j, inc j + rest.length < UMOD := by
        intro j
        have hbj := hbound j
        rw [List.length_cons] at hbj
        omega
      exact ih (brelse st i0 now) inc (bump dec i0) hle2 hrc2 hbound2 hm2.2 st2 inc2 dec2 h i
    | pin i0 =>
      simp only [cexecCnt] at h
      have hM2 : MatchedRun (bpin st i0) (bump inc i0) dec rest := by
        simp only [MatchedRun] at hm
        exact hm
      have hle2 : ∀ j, dec j ≤ bump inc i0 j := by
        intro j
        rw [bump]
        by_cases hj : j = i0
        · subst hj
          rw [Function.update_same]
          exact le_trans (hle j) (Nat.le_succ _)
        · rw [Function.update_noteq hj]
          exact hle j
      have hbound2 : ∀ j, bump inc i0 j + rest.length < UMOD := by
        intro j
        have hbj := hbound j
        rw [List.length_cons] at hbj
        rw [bump]
        by_cases hj : j = i0
        · subst hj
          rw [Function.update_same]
          omega
        · rw [Function.update_noteq hj]
          omega
      have hrc2 : ∀ j, ((bpin st i0).slots j).refcnt = bump inc i0 j - dec j := by
        intro j
        by_cases hj : j = i0
        · subst hj
          have hself : ((bpin st j).slots j).refcnt = uinc (st.slots j).refcnt := by
            simp [bpin, Function.update_same]
          rw [hself, hrc j]
          have hbj := hbound j
          rw [List.length_cons] at hbj
          have hlj := hle j
          have hlt : (inc j - dec j) + 1 < UMOD := by omega
          rw [uinc_eq _ hlt, bump, Function.update_same]
          omega
        · have hother : ((bpin st i0).slots j).refcnt = (st.slots j).refcnt := by
            simp [bpin, Function.update_noteq hj]
          rw [hother, hrc j, bump, Function.update_noteq hj]
      exact ih (bpin st i0) (bump inc i0) dec hle2 hrc2 hbound2 hM2 st2 inc2 dec2 h i
    | unpin i0 =>
      simp only [cexecCnt] at h
      have hm2 : dec i0 < inc i0 ∧ MatchedRun (bunpin st i0) inc (bump dec i0) rest := by
        simp only [MatchedRun] at hm
        exact hm
      have hle2 : ∀ j, bump dec i0 j ≤ inc j := by
        intro j
        rw [bump]
        by_cases hj : j = i0
        · subst hj
          rw [Function.update_same]
          exact hm2.1
        · rw [Function.update_noteq hj]
          exact hle j
      have hrc2 : ∀ j, ((bunpin st i0).slots j).refcnt = inc j - bump dec i0 j := by
        intro j
        by_cases hj : j = i0
        · subst hj
          have hself : ((bunpin st j).slots j).refcnt = udec (st.slots j).refcnt := by
            simp [bunpin, Function.update_same]
          rw [hself, hrc j]
          have hbj := hbound j
          rw [List.length_cons] at hbj
          have hp : 0 < inc j - dec j := by
            have := hm2.1
            omega
          have hq : inc j - dec j < UMOD := by omega
          rw [udec_eq _ hp hq, bump, Function.update_same]
          omega
        · have hother : ((bunpin st i0).slots j).refcnt = (st.slots j).refcnt := by
            simp [bunpin, Function.update_noteq hj]
          rw [hother, hrc j, bump, Function.update_noteq hj]
      have hbound2 : ∀ j, inc j + rest.length < UMOD := by
        intro j
        have hbj := hbound j
        rw [List.length_cons] at hbj
        omega
      exact ih (bunpin st i0) inc (bump dec i0) hle2 hrc2 hbound2 hm2.2 st2 inc2 dec2 h i
    | read i0 =>
      simp only [cexecCnt] at h
      have hM2 : MatchedRun (bread st i0) inc dec rest := by
        simp only [MatchedRun] at hm
        exact hm
      have hrc2 : ∀ j, ((bread st i0).slots j).refcnt = inc j - dec j := by
        intro j
        by_cases hj : j = i0
        · subst hj
          have hself : ((bread st j).slots j).refcnt = (st.slots j).refcnt := by
            simp [bread, Function.update_same]
          rw [hself, hrc j]
        · have hother : ((bread st i0).slots j).refcnt = (st.slots j).refcnt := by
            simp [bread, Function.update_noteq hj]
          rw [hother, hrc j]
      have hbound2 : ∀ j, inc j + rest.length < UMOD := by
        intro j
        have hbj := hbound j
        rw [List.length_cons] at hbj
        omega
      exact ih (bread st i0) inc dec hle hrc2 hbound2 hM2 st2 inc2 dec2 h i
    | write i0 =>
      simp only [cexecCnt] at h
      have hM2 : MatchedRun st inc dec rest := by
        simp only [MatchedRun] at hm
        exact hm
      have hbound2 : ∀ j, inc j + rest.length < UMOD := by
        intro j
        have hbj := hbound j
        rw [List.length_cons] at hbj
        omega
      exact ih st inc dec hle hrc hbound2 hM2 st2 inc2 dec2 h i

end Xv6

namespace Xv6

theorem MatchedRun_of_append {N : Nat} :
    ∀ (p q : List (COp N)) (st : BState N) (inc dec : Fin N → Nat),
      MatchedRun st inc dec (p ++ q) → MatchedRun st inc dec p := by
  intro p
  induction p with
  | nil => intro q st inc dec _; trivial
  | cons op rest ih =>
    intro q st inc dec h
    rw [List.cons_append] at h
    cases op with
    | get d b now =>
      cases hg : bget st d b now with
      | none =>
        simp [MatchedRun, hg]
      | some pr =>
        obtain ⟨r, st1⟩ := pr
        simp only [MatchedRun, hg] at h ⊢
        exact ih q st1 (bump inc r) dec h
    | relse i0 now =>
      simp only [MatchedRun] at h ⊢
      exact ⟨h.1, ih q _ inc (bump dec i0) h.2⟩
    | pin i0 =>
      simp only [MatchedRun] at h ⊢
      exact ih q _ (bump inc i0) dec h
    | unpin i0 =>
      simp only [MatchedRun] at h ⊢
      exact ⟨h.1, ih q _ inc (bump dec i0) h.2⟩
    | read i0 =>
      simp only [MatchedRun] at h ⊢
      exact ih q _ inc dec h
    | write i0 =>
      simp only [MatchedRun] at h ⊢
      exact ih q _ inc dec h

/-- C8: for every finite sequence of cache operations that is matched (each
`brelse`/`bunpin` of a slot is preceded by strictly more reference
increments of that slot — its matching `bget` returns or `bpin`s — than
decrements) and shorter than `2^32`, at every point of the run each slot's
reference count equals its number of increments so far minus its number of
decrements so far, with decrements never exceeding increments — so the
count, read as the balance, is never negative — and the reference count of a
slot is 0 exactly when its increments and decrements balance. -/
theorem c8_refcnt_balance {N : Nat} (t0 : Nat) (ops : List (COp N))
    (hM : MatchedRun (binitState N t0) (fun _ => 0) (fun _ => 0) ops)
    (hlen : ops.length < UMOD) :
    ∀ p q : List (COp N), ops = p ++ q →
      ∀ (st' : BState N) (inc' dec' : Fin N → Nat),
        cexecCnt (binitState N t0) (fun _ => 0) (fun _ => 0) p = some (st', inc', dec') →
        ∀ i, dec' i ≤ inc' i ∧ (st'.slots i).refcnt = inc' i - dec' i ∧
          ((st'.slots i).refcnt = 0 ↔ inc' i = dec' i) := by
  intro p q hpq st' inc' dec' h i
  have hMp : MatchedRun (binitState N t0) (fun _ => 0) (fun _ => 0) p := by
    rw [hpq] at hM
    exact MatchedRun_of_append p q _ _ _ hM
  have hplen : p.length ≤ ops.length := by
    rw [hpq, List.length_append]
    omega
  have hbound : ∀ i : Fin N, (fun _ : Fin N => 0) i + p.length < UMOD := by
    intro i
    show 0 + p.length < UMOD
    omega
  have hmain := cexecCnt_refcnt p (binitState N t0) (fun _ => 0) (fun _ => 0)
    (fun _ => le_refl 0) (fun _ => rfl) hbound hMp st' inc' dec' h i
  refine ⟨hmain.1, hmain.2, ?_, ?_⟩
  · intro h0
    have h1 := hmain.1
    rw [hmain.2] at h0
    omega
  · intro heq
    rw [hmain.2, heq]
    omega

/-- Witness for C8 at a concrete input: one slot, a pin then its matching
unpin. -/
theorem c8_refcnt_balance_witness :
    bump (fun _ : Fin 1 => 0) 0 0 ≤ bump (fun _ : Fin 1 => 0) 0 0 ∧
    ((bunpin (bpin (binitState 1 0) 0) 0).slots 0).refcnt =
      bump (fun _ : Fin 1 => 0) 0 0 - bump (fun _ : Fin 1 => 0) 0 0 ∧
    (((bunpin (bpin (binitState 1 0) 0) 0).slots 0).refcnt = 0 ↔
      bump (fun _ : Fin 1 => 0) 0 0 = bump (fun _ : Fin 1 => 0) 0 0) :=
  c8_refcnt_balance 0 ([COp.pin 0, COp.unpin 0] : List (COp 1))
    ⟨by decide, trivial⟩ (by decide)
    [COp.pin 0, COp.unpin 0] [] rfl
    (bunpin (bpin (binitState 1 0) 0) 0) (bump (fun _ => 0) 0) (bump (fun _ => 0) 0)
    rfl 0

end Xv6
